import Mathlib

/-
Shallow embedding of the singly linked list of
src/single-linked-list/single-linked-list.h and src/unnamed/part_000
(class SingleLinkedList<Type>).

Nodes live in an explicit heap addressed by natural numbers; a node stores a
value and an optional successor address (`next_node = nullptr` is `none`).
The list object itself holds the sentinel's next reference (`head_.next_node`)
and the element counter (`size_`).  Iterators are node pointers: a valid
insertion/erasure position (`assert(pos.node_)` in the source) is either the
sentinel (`before_begin`) or a node address, while returned/traversal
iterators may also be null (`none` = `end()`).
-/

namespace SLL

universe u

/-- Embeds `SingleLinkedList<Type>::Node`: a value plus the `next_node`
pointer (`none` models `nullptr`). -/
structure Node (α : Type u) where
  value : α
  next_node : Option Nat
  deriving Repr, DecidableEq

/-- The allocation heap: a partial map from addresses to nodes, plus the next
fresh address.  `operator new` hands out `nextA` and bumps it. -/
structure Heap (α : Type u) where
  mem : Nat → Option (Node α)
  nextA : Nat

/-- The fields of the list object: `headNext` is `head_.next_node` (the
sentinel's next pointer) and `size_` is the element counter. -/
structure LList (α : Type u) where
  headNext : Option Nat
  size_ : Nat
  deriving Repr, DecidableEq

/-- Pointwise update of the heap map at one address. -/
def updateM {α : Type u} (m : Nat → Option (Node α)) (a : Nat) (nd : Option (Node α)) :
    Nat → Option (Node α) :=
  fun x => if x = a then nd else m x

/-- Embeds `new Node(value, next)`: stores the node at the fresh address and
returns the heap together with that address. -/
def allocNode {α : Type u} (h : Heap α) (nd : Node α) : Heap α × Nat :=
  (⟨updateM h.mem h.nextA (some nd), h.nextA + 1⟩, h.nextA)

/-- Embeds `delete node`: removes the node stored at `a`. -/
def free {α : Type u} (h : Heap α) (a : Nat) : Heap α :=
  ⟨updateM h.mem a none, h.nextA⟩

/-- Embeds writing `node->next_node = q` for the node stored at `a`. -/
def setNext {α : Type u} (h : Heap α) (a : Nat) (q : Option Nat) : Heap α :=
  ⟨updateM h.mem a ((h.mem a).map fun nd => ⟨nd.value, q⟩), h.nextA⟩

/-- A non-null iterator argument, as required by `InsertAfter`/`EraseAfter`
(`assert(pos.node_)`): either the sentinel node `&head_` (`before_begin()`)
or the address of a list node. -/
inductive Pos where
  | beforeBegin : Pos
  | node : Nat → Pos
  deriving Repr, DecidableEq

/-- Reads `pos.node_->next_node`.  For a dangling address the source would be
undefined; the model returns `none` there (excluded by the preconditions). -/
def nextOf {α : Type u} (h : Heap α) (L : LList α) : Pos → Option Nat
  | Pos.beforeBegin => L.headNext
  | Pos.node a =>
      match h.mem a with
      | some nd => nd.next_node
      | none => none

/-- Writes `pos.node_->next_node = q`: through the sentinel this updates the
list object's `headNext`, through a node address it updates the heap. -/
def writeNext {α : Type u} (h : Heap α) (L : LList α) (p : Pos) (q : Option Nat) :
    Heap α × LList α :=
  match p with
  | Pos.beforeBegin => (h, ⟨q, L.size_⟩)
  | Pos.node a => (setNext h a q, L)

/-- Embeds `GetSize()`. -/
def GetSize {α : Type u} (L : LList α) : Nat := L.size_

/-- Embeds `IsEmpty()`. -/
def IsEmpty {α : Type u} (L : LList α) : Bool := L.size_ == 0

/-- Embeds `begin()`: the sentinel's next pointer (null for the empty list,
which is also `end()`). -/
def begin {α : Type u} (L : LList α) : Option Nat := L.headNext

/-- Embeds dereferencing an iterator (`operator*`) at node address `a`. -/
def deref {α : Type u} (h : Heap α) (a : Nat) : Option α :=
  (h.mem a).map Node.value

/-- Embeds `PushFront(value)`: `head_.next_node = new Node(value,
head_.next_node); ++size_;`. -/
def PushFront {α : Type u} (h : Heap α) (L : LList α) (value : α) : Heap α × LList α :=
  let p := allocNode h ⟨value, L.headNext⟩
  (p.1, ⟨some p.2, L.size_ + 1⟩)

/-- Embeds `InsertAfter(pos, value)` (both file variants have the same body):
construct the node first, then rewire `pos.node_->next_node`, then bump the
size; returns the new node's address (the returned iterator). -/
def InsertAfter {α : Type u} (h : Heap α) (L : LList α) (pos : Pos) (value : α) :
    Heap α × LList α × Nat :=
  let p := allocNode h ⟨value, nextOf h L pos⟩
  let w := writeNext p.1 L pos (some p.2)
  (w.1, ⟨w.2.headNext, w.2.size_ + 1⟩, p.2)

/-- Embeds `InsertAfter` when constructing the new node throws (allocation or
copying `value` fails): in the source the `new Node(...)` expression precedes
both the link rewiring and `++size_`, so only the allocation attempt has
happened when the exception propagates; the list members are untouched. -/
def InsertAfterFail {α : Type u} (h : Heap α) (L : LList α) (pos : Pos) (value : α) :
    Heap α × LList α :=
  ((allocNode h ⟨value, nextOf h L pos⟩).1, L)

/-- Embeds `PopFront()` of src/single-linked-list/single-linked-list.h, where
the whole body is guarded by `if (size_)`.  The inner `none` branch would be a
null dereference in C++ and is unreachable when the size invariant holds. -/
def PopFront {α : Type u} (h : Heap α) (L : LList α) : Heap α × LList α :=
  if L.size_ ≠ 0 then
    match L.headNext with
    | some node_to_del =>
        let nxt := match h.mem node_to_del with
          | some nd => nd.next_node
          | none => none
        (free h node_to_del, ⟨nxt, L.size_ - 1⟩)
    | none => (h, L)
  else (h, L)

/-- Embeds `EraseAfter(pos)`: reads `node_to_del = pos.node_->next_node`,
rewires `pos.node_->next_node` to `node_to_del->next_node`, deletes the node,
decrements the size and returns `pos.node_->next_node` (the rewired value).
The `none` branch is the null dereference excluded by the contract. -/
def EraseAfter {α : Type u} (h : Heap α) (L : LList α) (pos : Pos) :
    Heap α × LList α × Option Nat :=
  match nextOf h L pos with
  | some node_to_del =>
      let nxt := match h.mem node_to_del with
        | some nd => nd.next_node
        | none => none
      let w := writeNext h L pos nxt
      (free w.1 node_to_del, ⟨w.2.headNext, w.2.size_ - 1⟩, nxt)
  | none => (h, L, none)

/-- Embeds the loop of `Clear()`: walk from `head_.next_node`, deleting each
node before advancing.  The loop is bounded by the element counter, which
covers the whole chain whenever the size invariant holds. -/
def freeFrom {α : Type u} (h : Heap α) : Option Nat → Nat → Heap α
  | none, _ => h
  | some _, 0 => h
  | some a, fuel + 1 =>
      let nxt := match h.mem a with
        | some nd => nd.next_node
        | none => none
      freeFrom (free h a) nxt fuel

/-- Embeds `Clear()`: free the chain, then `size_ = 0; head_.next_node =
nullptr;`. -/
def Clear {α : Type u} (h : Heap α) (L : LList α) : Heap α × LList α :=
  (freeFrom h L.headNext L.size_, ⟨none, 0⟩)

/-- Embeds `swap(other)` of src/unnamed/part_000, which exchanges
`head_.next_node` and `size_` through temporaries.  The node chains stay where
they are in the heap; only the two list objects' members are exchanged. -/
def swap {α : Type u} (A B : LList α) : LList α × LList α :=
  (⟨B.headNext, B.size_⟩, ⟨A.headNext, A.size_⟩)

/-- Embeds `swap(other)` of src/single-linked-list/single-linked-list.h as
written: `std::swap(&head_.next_node, &other.head_.next_node)` and
`std::swap(&size_, other.size_)` apply `std::swap` to addresses of the
members (rvalue pointers, and a `size_t*` against a `size_t`), which is
ill-formed C++ and in no reading exchanges the members; the model records
that the list objects are left unchanged. -/
def swapAddrs {α : Type u} (A B : LList α) : LList α × LList α :=
  (A, B)

/-- Embeds the loop of `Construct(begin, end)` (and of the part_000
constructors): walk the input, appending `new Node(value, nullptr)` after the
previous node.  Returns the heap and the address of the first node built. -/
def Construct {α : Type u} (h : Heap α) : List α → Heap α × Option Nat
  | [] => (h, none)
  | v :: vs =>
      let p := allocNode h ⟨v, none⟩
      let rest := Construct p.1 vs
      (setNext rest.1 p.2 rest.2, some p.2)

/-- Embeds `SingleLinkedList(std::initializer_list<Type> values)`:
`size_(values.size())` then `Construct(values.begin(), values.end())`. -/
def ofValues {α : Type u} (h : Heap α) (values : List α) : Heap α × LList α :=
  let p := Construct h values
  (p.1, ⟨p.2, values.length⟩)

/-- Traversal from a node pointer, bounded by fuel; the fuel is instantiated
with the element counter, which reaches the null terminator exactly whenever
the size invariant holds. -/
def toListF {α : Type u} (h : Heap α) : Option Nat → Nat → List α
  | none, _ => []
  | some _, 0 => []
  | some a, fuel + 1 =>
      match h.mem a with
      | none => []
      | some nd => nd.value :: toListF h nd.next_node fuel

/-- The sequence of values visited by iterating from `begin()` to `end()`. -/
def traversal {α : Type u} (h : Heap α) (L : LList α) : List α :=
  toListF h L.headNext L.size_

/-- Embeds `SingleLinkedList(const SingleLinkedList& other)`:
`size_(other.GetSize())` then `Construct(other.begin(), other.end())`. -/
def copyOf {α : Type u} (h : Heap α) (other : LList α) : Heap α × LList α :=
  let p := Construct h (traversal h other)
  (p.1, ⟨p.2, other.size_⟩)

/-- Embeds `operator=`: copy-construct a temporary from `rhs`, swap with it,
and let the temporary's destructor (`Clear`) release the old chain.  The
`addressof` self-assignment guard is the identity and is treated separately
where needed. -/
def assign {α : Type u} (h : Heap α) (dst src : LList α) : Heap α × LList α :=
  let c := copyOf h src
  let s := swap dst c.2
  let cl := Clear c.1 s.2
  (cl.1, s.1)

/-- Embeds `std::lexicographical_compare(first1, last1, first2, last2, comp)`
over the two traversal sequences. -/
def lexicographicalCompare {α : Type u} (comp : α → α → Bool) :
    List α → List α → Bool
  | _, [] => false
  | [], _ :: _ => true
  | a :: as, b :: bs =>
      if comp a b then true
      else if comp b a then false
      else lexicographicalCompare comp as bs

/-- Embeds `operator<`: lexicographic compare with per-element `operator<`. -/
def ltOp {α : Type u} [LinearOrder α] (h : Heap α) (lhs rhs : LList α) : Bool :=
  lexicographicalCompare (fun x y => decide (x < y)) (traversal h lhs) (traversal h rhs)

/-- Embeds `operator>`: lexicographic compare with `std::greater`, i.e.
per-element comparator `x > y` (`y < x`). -/
def gtOp {α : Type u} [LinearOrder α] (h : Heap α) (lhs rhs : LList α) : Bool :=
  lexicographicalCompare (fun x y => decide (y < x)) (traversal h lhs) (traversal h rhs)

/-- Embeds the element loop of `operator==` (`std::equal` in one variant, an
explicit lockstep loop in the other), which runs only after the size check. -/
def equalRange {α : Type u} [DecidableEq α] : List α → List α → Bool
  | [], _ => true
  | _ :: _, [] => false
  | a :: as, b :: bs => if a = b then equalRange as bs else false

/-- Embeds `operator==`: the `lhs.begin() == rhs.begin()` pointer fast path,
then the size check, then the element loop. -/
def eqOp {α : Type u} [DecidableEq α] (h : Heap α) (lhs rhs : LList α) : Bool :=
  if lhs.headNext = rhs.headNext then true
  else if lhs.size_ ≠ rhs.size_ then false
  else equalRange (traversal h lhs) (traversal h rhs)

/-- The iterator argument that references the element at traversal index
`k - 1` of a list whose chain visits the addresses `as`; slot `0` is the
`before_begin()` sentinel position (the claims' index `i = -1`). -/
def posIdx (as : List Nat) : Nat → Pos
  | 0 => Pos.beforeBegin
  | k + 1 => Pos.node (as.getD k 0)

/-- A heap with no allocated node, for concrete evaluations. -/
def emptyHeap (α : Type u) : Heap α :=
  ⟨fun _ => none, 0⟩

/-- The node chain reachable from a next-pointer: `Chain m p as vs` says that
starting at pointer `p` and following `next_node` visits exactly the node
addresses `as` holding the values `vs`, ending at a null pointer.  A finite
derivation exists only for finite, null-terminated chains. -/
inductive Chain {α : Type u} (m : Nat → Option (Node α)) :
    Option Nat → List Nat → List α → Prop where
  | nil : Chain m none [] []
  | cons {a : Nat} {v : α} {p : Option Nat} {as : List Nat} {vs : List α} :
      m a = some ⟨v, p⟩ → Chain m p as vs → Chain m (some a) (a :: as) (v :: vs)

/-- The list invariant: the sentinel's next pointer heads a finite
null-terminated chain, `size_` equals the number of its nodes, and every
chain node lives below the heap's allocation frontier. -/
def WF {α : Type u} (h : Heap α) (L : LList α) : Prop :=
  ∃ as vs, Chain h.mem L.headNext as vs ∧ L.size_ = as.length ∧ ∀ a ∈ as, a < h.nextA

/-- A valid argument position for `InsertAfter`: the sentinel or the address
of a node of this list's chain. -/
def PosOk {α : Type u} (h : Heap α) (L : LList α) : Pos → Prop
  | Pos.beforeBegin => True
  | Pos.node a => ∃ as vs, Chain h.mem L.headNext as vs ∧ a ∈ as

/-- List states reachable from a constructor by the public operations, each
taken under its documented precondition.  The heap evolves only through this
list's own operations; `swap` and `operator=` may involve a second,
well-formed list sharing the heap. -/
inductive Reach {α : Type u} : Heap α → LList α → Prop where
  | mkDefault (h : Heap α) : Reach h ⟨none, 0⟩
  | mkOfValues (h : Heap α) (values : List α) :
      Reach (ofValues h values).1 (ofValues h values).2
  | mkCopy (h : Heap α) (src : LList α) : WF h src →
      Reach (copyOf h src).1 (copyOf h src).2
  | pushFront {h : Heap α} {L : LList α} (v : α) : Reach h L →
      Reach (PushFront h L v).1 (PushFront h L v).2
  | popFront {h : Heap α} {L : LList α} : Reach h L → L.size_ ≠ 0 →
      Reach (PopFront h L).1 (PopFront h L).2
  | insertAfter {h : Heap α} {L : LList α} (pos : Pos) (v : α) : Reach h L →
      PosOk h L pos →
      Reach (InsertAfter h L pos v).1 (InsertAfter h L pos v).2.1
  | eraseAfter {h : Heap α} {L : LList α} (pos : Pos) : Reach h L →
      PosOk h L pos → nextOf h L pos ≠ none →
      Reach (EraseAfter h L pos).1 (EraseAfter h L pos).2.1
  | clearOp {h : Heap α} {L : LList α} : Reach h L →
      Reach (Clear h L).1 (Clear h L).2
  | swapOp {h : Heap α} {L : LList α} (other : LList α) : Reach h L →
      WF h other → Reach h (swap L other).1
  | assignOp {h : Heap α} {L : LList α} (src : LList α) : Reach h L →
      WF h src → Reach (assign h L src).1 (assign h L src).2

theorem updateM_same {α : Type u} (m : Nat → Option (Node α)) (a : Nat)
    (nd : Option (Node α)) : updateM m a nd a = nd := by
  simp [updateM]

theorem updateM_other {α : Type u} (m : Nat → Option (Node α)) {a x : Nat}
    (nd : Option (Node α)) (hx : x ≠ a) : updateM m a nd x = m x := by
  simp [updateM, hx]

theorem chain_frame {α : Type u} {m m' : Nat → Option (Node α)} {p : Option Nat}
    {as : List Nat} {vs : List α} (hc : Chain m p as vs)
    (hm : ∀ a ∈ as, m' a = m a) : Chain m' p as vs := by
  induction hc with
  | nil => exact Chain.nil
  | cons ha _ ih =>
      exact Chain.cons (by rw [hm _ (by simp)]; exact ha)
        (ih fun a hmem => hm a (by simp [hmem]))

theorem chain_unique {α : Type u} {m : Nat → Option (Node α)} {p : Option Nat}
    {as bs : List Nat} {vs ws : List α} (h1 : Chain m p as vs)
    (h2 : Chain m p bs ws) : as = bs ∧ vs = ws := by
  induction h1 generalizing bs ws with
  | nil => cases h2; exact ⟨rfl, rfl⟩
  | cons ha _ ih =>
      cases h2 with
      | cons hb h2' =>
          rw [ha] at hb
          simp only [Option.some.injEq, Node.mk.injEq] at hb
          obtain ⟨hv, hp⟩ := hb
          subst hv; subst hp
          obtain ⟨h3, h4⟩ := ih h2'
          exact ⟨by rw [h3], by rw [h4]⟩

theorem chain_length {α : Type u} {m : Nat → Option (Node α)} {p : Option Nat}
    {as : List Nat} {vs : List α} (hc : Chain m p as vs) :
    as.length = vs.length := by
  induction hc with
  | nil => rfl
  | cons _ _ ih => simpa using ih

theorem chain_mem_tail {α : Type u} {m : Nat → Option (Node α)} {p : Option Nat}
    {as : List Nat} {vs : List α} {a : Nat} (hc : Chain m p as vs)
    (ha : a ∈ as) :
    ∃ as' vs', Chain m (some a) (a :: as') vs' ∧ as'.length < as.length := by
  induction hc with
  | nil => cases ha
  | cons hb hc' ih =>
      rcases List.mem_cons.mp ha with rfl | hmem
      · exact ⟨_, _, Chain.cons hb hc', by simp⟩
      · obtain ⟨as', vs', hch, hlen⟩ := ih hmem
        exact ⟨as', vs', hch, by simpa using Nat.lt_succ_of_lt hlen⟩

theorem chain_nodup {α : Type u} {m : Nat → Option (Node α)} {p : Option Nat}
    {as : List Nat} {vs : List α} (hc : Chain m p as vs) : as.Nodup := by
  induction hc with
  | nil => exact List.nodup_nil
  | cons hb hc' ih =>
      rename_i a0 v0 p0 as0 vs0
      refine List.nodup_cons.mpr ⟨?_, ih⟩
      intro hmem
      obtain ⟨as', vs', hch, hlen⟩ := chain_mem_tail hc' hmem
      have h5 : as0 = as' := by
        have h6 := (chain_unique (Chain.cons hb hc') hch).1
        injection h6
      rw [h5] at hlen
      exact Nat.lt_irrefl _ hlen

theorem toListF_of_chain {α : Type u} {h : Heap α} {p : Option Nat}
    {as : List Nat} {vs : List α} (hc : Chain h.mem p as vs) :
    toListF h p as.length = vs := by
  induction hc with
  | nil => rfl
  | cons hb _ ih => simp [toListF, hb, ih]

theorem traversal_of_chain {α : Type u} {h : Heap α} {L : LList α}
    {as : List Nat} {vs : List α} (hc : Chain h.mem L.headNext as vs)
    (hs : L.size_ = as.length) : traversal h L = vs := by
  rw [traversal, hs]
  exact toListF_of_chain hc

theorem Construct_spec {α : Type u} (values : List α) (h : Heap α) :
    Chain (Construct h values).1.mem (Construct h values).2
        (List.range' h.nextA values.length) values ∧
    (Construct h values).1.nextA = h.nextA + values.length ∧
    ∀ x, x < h.nextA → (Construct h values).1.mem x = h.mem x := by
  induction values generalizing h with
  | nil =>
      exact ⟨Chain.nil, by simp [Construct], fun x _ => rfl⟩
  | cons v vs ih =>
      obtain ⟨ihc, ihn, ihf⟩ := ih ⟨updateM h.mem h.nextA (some ⟨v, none⟩), h.nextA + 1⟩
      set h1 : Heap α := ⟨updateM h.mem h.nextA (some ⟨v, none⟩), h.nextA + 1⟩ with hh1
      set r := Construct h1 vs with hr
      have hstep : Construct h (v :: vs) = (setNext r.1 h.nextA r.2, some h.nextA) := rfl
      have hn1 : h1.nextA = h.nextA + 1 := rfl
      have hm1 : r.1.mem h.nextA = some ⟨v, none⟩ := by
        rw [ihf h.nextA (by omega)]
        exact updateM_same _ _ _
      have hmtop : (setNext r.1 h.nextA r.2).mem h.nextA = some ⟨v, r.2⟩ := by
        show updateM r.1.mem h.nextA ((r.1.mem h.nextA).map fun nd => ⟨nd.value, r.2⟩) h.nextA
            = some ⟨v, r.2⟩
        rw [updateM_same, hm1]
        rfl
      refine ⟨?_, ?_, ?_⟩
      · rw [hstep]
        simp only [List.length_cons, List.range'_succ]
        refine Chain.cons hmtop (chain_frame (by rw [hn1] at ihc; exact ihc) ?_)
        intro a hmem
        have hge : h.nextA + 1 ≤ a := (List.mem_range'_1.mp hmem).1
        show updateM r.1.mem h.nextA ((r.1.mem h.nextA).map fun nd => ⟨nd.value, r.2⟩) a
            = r.1.mem a
        exact updateM_other _ _ (by omega)
      · rw [hstep]
        show r.1.nextA = h.nextA + (vs.length + 1)
        rw [ihn, hn1]
        omega
      · intro x hx
        rw [hstep]
        show updateM r.1.mem h.nextA ((r.1.mem h.nextA).map fun nd => ⟨nd.value, r.2⟩) x
            = h.mem x
        rw [updateM_other _ _ (by omega), ihf x (by omega)]
        exact updateM_other _ _ (by omega)

theorem chain_node_val {α : Type u} {m : Nat → Option (Node α)} :
    ∀ {l1 : List Nat} {w1 : List α} {p : Option Nat} {x : Nat} {xv : α}
      {l2 : List Nat} {w2 : List α},
    Chain m p (l1 ++ x :: l2) (w1 ++ xv :: w2) → l1.length = w1.length →
    ∃ q, m x = some ⟨xv, q⟩ ∧ Chain m q l2 w2 := by
  intro l1
  induction l1 with
  | nil =>
      intro w1 p x xv l2 w2 hc hlen
      cases w1 with
      | nil =>
          simp only [List.nil_append] at hc
          cases hc with
          | cons hb hc' => exact ⟨_, hb, hc'⟩
      | cons _ _ => simp at hlen
  | cons a l1' ih =>
      intro w1 p x xv l2 w2 hc hlen
      cases w1 with
      | nil => simp at hlen
      | cons av w1' =>
          simp only [List.cons_append] at hc
          cases hc with
          | cons hb hc' => exact ih hc' (by simpa using hlen)

theorem chain_insert_node {α : Type u} {m : Nat → Option (Node α)} (nA : Nat)
    (v : α) :
    ∀ {l1 : List Nat} {w1 : List α} {p : Option Nat} {x : Nat} {xv : α}
      {l2 : List Nat} {w2 : List α} {q : Option Nat},
    Chain m p (l1 ++ x :: l2) (w1 ++ xv :: w2) → l1.length = w1.length →
    (∀ a ∈ l1 ++ x :: l2, a < nA) → m x = some ⟨xv, q⟩ →
    Chain (updateM (updateM m nA (some ⟨v, q⟩)) x (some ⟨xv, some nA⟩)) p
      (l1 ++ x :: nA :: l2) (w1 ++ xv :: v :: w2) := by
  intro l1
  induction l1 with
  | nil =>
      intro w1 p x xv l2 w2 q hc hlen hbound hx
      cases w1 with
      | nil =>
          simp only [List.nil_append] at hc ⊢
          cases hc with
          | cons hb hc' =>
              have hq : Chain m q l2 w2 := by
                rw [hb] at hx
                simp only [Option.some.injEq, Node.mk.injEq] at hx
                rw [← hx.2]
                exact hc'
              have hxlt : x < nA := hbound x (by simp)
              have hxnotl2 : x ∉ l2 := by
                have hnd := chain_nodup (Chain.cons hb hc')
                exact (List.nodup_cons.mp hnd).1
              refine Chain.cons (updateM_same _ _ _) ?_
              have hmemnA : updateM (updateM m nA (some ⟨v, q⟩)) x
                  (some ⟨xv, some nA⟩) nA = some ⟨v, q⟩ := by
                rw [updateM_other _ _ (by omega)]
                exact updateM_same _ _ _
              refine Chain.cons hmemnA ?_
              refine chain_frame hq ?_
              intro a ha
              have hax : a ≠ x := fun heq => hxnotl2 (heq ▸ ha)
              have hanA : a < nA := hbound a (by simp [ha])
              rw [updateM_other _ _ hax, updateM_other _ _ (by omega)]
      | cons _ _ => simp at hlen
  | cons a l1' ih =>
      intro w1 p x xv l2 w2 q hc hlen hbound hx
      cases w1 with
      | nil => simp at hlen
      | cons av w1' =>
          simp only [List.cons_append] at hc ⊢
          cases hc with
          | cons hb hc' =>
              have hanA : a < nA := hbound a (by simp)
              have hax : a ≠ x := by
                have hnd := chain_nodup (Chain.cons hb hc')
                intro heq
                exact (List.nodup_cons.mp hnd).1 (by simp [heq])
              refine Chain.cons ?_ (ih hc' (by simpa using hlen)
                (fun b hb2 => hbound b (by simp [List.mem_append] at hb2 ⊢; tauto)) hx)
              rw [updateM_other _ _ hax, updateM_other _ _ (by omega)]
              exact hb

theorem chain_erase_node {α : Type u} {m : Nat → Option (Node α)} :
    ∀ {l1 : List Nat} {w1 : List α} {p : Option Nat} {x d : Nat} {xv dv : α}
      {l2 : List Nat} {w2 : List α} {q : Option Nat},
    Chain m p (l1 ++ x :: d :: l2) (w1 ++ xv :: dv :: w2) → l1.length = w1.length →
    m d = some ⟨dv, q⟩ →
    Chain (updateM (updateM m x (some ⟨xv, q⟩)) d none) p
      (l1 ++ x :: l2) (w1 ++ xv :: w2) := by
  intro l1
  induction l1 with
  | nil =>
      intro w1 p x d xv dv l2 w2 q hc hlen hd
      cases w1 with
      | nil =>
          simp only [List.nil_append] at hc ⊢
          cases hc with
          | cons hb hc' =>
              cases hc' with
              | cons hb2 hc'' =>
                  have hnd := chain_nodup (Chain.cons hb (Chain.cons hb2 hc''))
                  have hxd : x ≠ d := by
                    intro heq
                    exact (List.nodup_cons.mp hnd).1 (by simp [heq])
                  have hxl2 : x ∉ l2 := fun hmem =>
                    (List.nodup_cons.mp hnd).1 (by simp [hmem])
                  have hdl2 : d ∉ l2 :=
                    (List.nodup_cons.mp (List.nodup_cons.mp hnd).2).1
                  have hq : Chain m q l2 w2 := by
                    rw [hb2] at hd
                    simp only [Option.some.injEq, Node.mk.injEq] at hd
                    rw [← hd.2]
                    exact hc''
                  refine Chain.cons ?_ (chain_frame hq ?_)
                  · rw [updateM_other _ _ hxd, updateM_same]
                  · intro a ha
                    have had : a ≠ d := fun heq => hdl2 (heq ▸ ha)
                    have hax : a ≠ x := fun heq => hxl2 (heq ▸ ha)
                    rw [updateM_other _ _ had, updateM_other _ _ hax]
      | cons _ _ => simp at hlen
  | cons a l1' ih =>
      intro w1 p x d xv dv l2 w2 q hc hlen hd
      cases w1 with
      | nil => simp at hlen
      | cons av w1' =>
          simp only [List.cons_append] at hc ⊢
          cases hc with
          | cons hb hc' =>
              have hnd := chain_nodup (Chain.cons hb hc')
              have hamem := (List.nodup_cons.mp hnd).1
              have had : a ≠ d := fun heq => hamem (by simp [heq])
              have hax : a ≠ x := fun heq => hamem (by simp [heq])
              refine Chain.cons ?_ (ih hc' (by simpa using hlen) hd)
              rw [updateM_other _ _ had, updateM_other _ _ hax]
              exact hb

theorem listSplitAt {β : Type u} (l : List β) (j : Nat) (hj : j < l.length) :
    l = l.take j ++ l.get ⟨j, hj⟩ :: l.drop (j + 1) := by
  conv_lhs => rw [← List.take_append_drop j l]
  rw [← List.getElem_cons_drop l j hj]
  rfl

theorem InsertAfter_spec {α : Type u} {h : Heap α} {L : LList α} {as : List Nat}
    {vs : List α} (v : α) (hc : Chain h.mem L.headNext as vs)
    (hbound : ∀ a ∈ as, a < h.nextA) {k : Nat} (hk : k ≤ as.length) :
    Chain (InsertAfter h L (posIdx as k) v).1.mem
      (InsertAfter h L (posIdx as k) v).2.1.headNext
      (as.take k ++ h.nextA :: as.drop k) (vs.take k ++ v :: vs.drop k) ∧
    (InsertAfter h L (posIdx as k) v).2.1.size_ = L.size_ + 1 ∧
    (InsertAfter h L (posIdx as k) v).2.2 = h.nextA ∧
    (InsertAfter h L (posIdx as k) v).1.nextA = h.nextA + 1 ∧
    deref (InsertAfter h L (posIdx as k) v).1 (InsertAfter h L (posIdx as k) v).2.2
      = some v := by
  cases k with
  | zero =>
      have hres : InsertAfter h L (posIdx as 0) v =
          (⟨updateM h.mem h.nextA (some ⟨v, L.headNext⟩), h.nextA + 1⟩,
           ⟨some h.nextA, L.size_ + 1⟩, h.nextA) := rfl
      rw [hres]
      refine ⟨?_, rfl, rfl, rfl, ?_⟩
      · simp only [List.take_zero, List.drop_zero, List.nil_append]
        refine Chain.cons (updateM_same _ _ _) (chain_frame hc ?_)
        intro a ha
        exact updateM_other _ _ (by have := hbound a ha; omega)
      · show (updateM h.mem h.nextA (some ⟨v, L.headNext⟩) h.nextA).map Node.value
            = some v
        rw [updateM_same]
        rfl
  | succ j =>
      have hj : j < as.length := by omega
      have hj' : j < vs.length := by rw [← chain_length hc]; exact hj
      have hxd : as.getD j 0 = as.get ⟨j, hj⟩ := by
        simp [List.getD_eq_getElem?_getD, List.getElem?_eq_getElem hj]
      set x := as.get ⟨j, hj⟩ with hxdef
      set xv := vs.get ⟨j, hj'⟩ with hxvdef
      have hsa : as = as.take j ++ x :: as.drop (j + 1) := listSplitAt as j hj
      have hsv : vs = vs.take j ++ xv :: vs.drop (j + 1) := listSplitAt vs j hj'
      have hlen : (as.take j).length = (vs.take j).length := by
        simp only [List.length_take]
        omega
      have hcs : Chain h.mem L.headNext (as.take j ++ x :: as.drop (j + 1))
          (vs.take j ++ xv :: vs.drop (j + 1)) := by rw [← hsa, ← hsv]; exact hc
      have hbs : ∀ a ∈ as.take j ++ x :: as.drop (j + 1), a < h.nextA := by
        rw [← hsa]; exact hbound
      obtain ⟨q, hmx, -⟩ := chain_node_val hcs hlen
      have hxlt : x < h.nextA := hbs x (by simp)
      have hpos : posIdx as (j + 1) = Pos.node x := by
        rw [posIdx, hxd]
      have hnext : nextOf h L (Pos.node x) = q := by
        rw [nextOf, hmx]
      have hmemx : updateM h.mem h.nextA (some ⟨v, q⟩) x = some ⟨xv, q⟩ := by
        rw [updateM_other _ _ (by omega)]
        exact hmx
      have hres : InsertAfter h L (Pos.node x) v =
          (⟨updateM (updateM h.mem h.nextA (some ⟨v, q⟩)) x (some ⟨xv, some h.nextA⟩),
            h.nextA + 1⟩, ⟨L.headNext, L.size_ + 1⟩, h.nextA) := by
        simp only [InsertAfter, allocNode, writeNext, setNext, hnext]
        rw [hmemx]
        rfl
      rw [hpos, hres]
      refine ⟨?_, rfl, rfl, rfl, ?_⟩
      · have hgoal := chain_insert_node h.nextA v hcs hlen hbs hmx
        have hta : as.take (j + 1) ++ h.nextA :: as.drop (j + 1)
            = as.take j ++ x :: h.nextA :: as.drop (j + 1) := by
          rw [List.take_succ, List.getElem?_eq_getElem hj]
          simp only [Option.toList_some, List.append_assoc, List.singleton_append]
          rfl
        have htv : vs.take (j + 1) ++ v :: vs.drop (j + 1)
            = vs.take j ++ xv :: v :: vs.drop (j + 1) := by
          rw [List.take_succ, List.getElem?_eq_getElem hj']
          simp only [Option.toList_some, List.append_assoc, List.singleton_append]
          rfl
        rw [hta, htv]
        exact hgoal
      · show ((updateM (updateM h.mem h.nextA (some ⟨v, q⟩)) x
            (some ⟨xv, some h.nextA⟩)) h.nextA).map Node.value = some v
        rw [updateM_other _ _ (by omega), updateM_same]
        rfl

theorem chain_head {α : Type u} {m : Nat → Option (Node α)} {p : Option Nat}
    {as : List Nat} {vs : List α} (hc : Chain m p as vs) : p = as.head? := by
  cases hc with
  | nil => rfl
  | cons _ _ => rfl

theorem EraseAfter_spec {α : Type u} {h : Heap α} {L : LList α} {as : List Nat}
    {vs : List α} (hc : Chain h.mem L.headNext as vs) {k : Nat}
    (hk : k < as.length) :
    Chain (EraseAfter h L (posIdx as k)).1.mem
      (EraseAfter h L (posIdx as k)).2.1.headNext
      (as.take k ++ as.drop (k + 1)) (vs.take k ++ vs.drop (k + 1)) ∧
    (EraseAfter h L (posIdx as k)).2.1.size_ = L.size_ - 1 ∧
    (EraseAfter h L (posIdx as k)).2.2 = (as.drop (k + 1)).head? ∧
    (EraseAfter h L (posIdx as k)).1.nextA = h.nextA := by
  cases k with
  | zero =>
      cases as with
      | nil => simp at hk
      | cons d rest =>
          have hh : L.headNext = some d := chain_head hc
          have hnd := chain_nodup hc
          rw [hh] at hc
          cases hc with
          | cons hb hc' =>
              rename_i dv q ws
              have hres : EraseAfter h L (posIdx (d :: rest) 0) =
                  (⟨updateM h.mem d none, h.nextA⟩, ⟨q, L.size_ - 1⟩, q) := by
                simp only [posIdx, EraseAfter, nextOf, hh, hb, writeNext, free]
              rw [hres]
              refine ⟨?_, rfl, ?_, rfl⟩
              · simp only [List.take_zero, List.drop_succ_cons, List.drop_zero,
                  List.nil_append]
                refine chain_frame hc' ?_
                intro a ha
                have had : a ≠ d := by
                  intro heq
                  exact (List.nodup_cons.mp hnd).1 (heq ▸ ha)
                exact updateM_other _ _ had
              · simp only [List.drop_succ_cons, List.drop_zero]
                exact chain_head hc'
  | succ j =>
      have hj : j < as.length := by omega
      have hj1 : j + 1 < as.length := hk
      have hjv : j < vs.length := by rw [← chain_length hc]; exact hj
      have hjv1 : j + 1 < vs.length := by rw [← chain_length hc]; exact hj1
      have hxd : as.getD j 0 = as.get ⟨j, hj⟩ := by
        simp [List.getD_eq_getElem?_getD, List.getElem?_eq_getElem hj]
      set x := as.get ⟨j, hj⟩ with hxdef
      set d := as.get ⟨j + 1, hj1⟩ with hddef
      set xv := vs.get ⟨j, hjv⟩ with hxvdef
      set dv := vs.get ⟨j + 1, hjv1⟩ with hdvdef
      have hsa : as = as.take j ++ x :: d :: as.drop (j + 2) := by
        have h1 := listSplitAt as j hj
        have h2 : as.drop (j + 1) = d :: as.drop (j + 2) := by
          rw [hddef]
          simp only [List.get_eq_getElem]
          exact (List.getElem_cons_drop as (j + 1) hj1).symm
        rw [h2] at h1
        exact h1
      have hsv : vs = vs.take j ++ xv :: dv :: vs.drop (j + 2) := by
        have h1 := listSplitAt vs j hjv
        have h2 : vs.drop (j + 1) = dv :: vs.drop (j + 2) := by
          rw [hdvdef]
          simp only [List.get_eq_getElem]
          exact (List.getElem_cons_drop vs (j + 1) hjv1).symm
        rw [h2] at h1
        exact h1
      have hlen : (as.take j).length = (vs.take j).length := by
        simp only [List.length_take]
        omega
      have hcs : Chain h.mem L.headNext (as.take j ++ x :: d :: as.drop (j + 2))
          (vs.take j ++ xv :: dv :: vs.drop (j + 2)) := by
        rw [← hsa, ← hsv]
        exact hc
      obtain ⟨qx, hmx, hqx⟩ := chain_node_val hcs hlen
      cases hqx with
      | cons hmd hq =>
          rename_i q2
          have hpos : posIdx as (j + 1) = Pos.node x := by
            rw [posIdx, hxd]
          have hmemx2 : (h.mem x).map (fun nd => (⟨nd.value, q2⟩ : Node α))
              = some ⟨xv, q2⟩ := by
            rw [hmx]
            rfl
          have hres : EraseAfter h L (Pos.node x) =
              (⟨updateM (updateM h.mem x (some ⟨xv, q2⟩)) d none, h.nextA⟩,
               ⟨L.headNext, L.size_ - 1⟩, q2) := by
            simp only [EraseAfter, nextOf, hmx, hmd, writeNext, setNext, free, hmemx2]
            rfl
          rw [hpos, hres]
          refine ⟨?_, rfl, ?_, rfl⟩
          · have hgoal := chain_erase_node hcs hlen hmd
            have hta : as.take (j + 1) ++ as.drop (j + 2)
                = as.take j ++ x :: as.drop (j + 2) := by
              rw [List.take_succ, List.getElem?_eq_getElem hj]
              simp only [Option.toList_some, List.append_assoc, List.singleton_append]
              rfl
            have htv : vs.take (j + 1) ++ vs.drop (j + 2)
                = vs.take j ++ xv :: vs.drop (j + 2) := by
              rw [List.take_succ, List.getElem?_eq_getElem hjv]
              simp only [Option.toList_some, List.append_assoc, List.singleton_append]
              rfl
            rw [hta, htv]
            exact hgoal
          · have h2 : as.drop (j + 1 + 1) = as.drop (j + 2) := rfl
            rw [h2]
            exact chain_head hq

theorem PushFront_spec {α : Type u} {h : Heap α} {L : LList α} {as : List Nat}
    {vs : List α} (v : α) (hc : Chain h.mem L.headNext as vs)
    (hbound : ∀ a ∈ as, a < h.nextA) :
    Chain (PushFront h L v).1.mem (PushFront h L v).2.headNext
      (h.nextA :: as) (v :: vs) ∧
    (PushFront h L v).2.size_ = L.size_ + 1 ∧
    (PushFront h L v).1.nextA = h.nextA + 1 := by
  refine ⟨?_, rfl, rfl⟩
  refine Chain.cons (updateM_same _ _ _) (chain_frame hc ?_)
  intro a ha
  exact updateM_other _ _ (by have := hbound a ha; omega)

theorem PopFront_spec {α : Type u} {h : Heap α} {L : LList α} {as : List Nat}
    {vs : List α} (hc : Chain h.mem L.headNext as vs)
    (hs : L.size_ = as.length) (hsz : L.size_ ≠ 0) :
    Chain (PopFront h L).1.mem (PopFront h L).2.headNext as.tail vs.tail ∧
    (PopFront h L).2.size_ = L.size_ - 1 ∧
    (PopFront h L).1.nextA = h.nextA := by
  cases as with
  | nil => rw [hs] at hsz; simp at hsz
  | cons d rest =>
      have hnd := chain_nodup hc
      have hh : L.headNext = some d := chain_head hc
      rw [hh] at hc
      cases hc with
      | cons hb hc' =>
          rename_i v0 p0 vs0
          have hres : PopFront h L = (free h d, ⟨p0, L.size_ - 1⟩) := by
            simp only [PopFront, if_pos hsz, hh, hb]
          rw [hres]
          refine ⟨?_, rfl, rfl⟩
          refine chain_frame hc' ?_
          intro a ha
          have had : a ≠ d := by
            intro heq
            exact (List.nodup_cons.mp hnd).1 (heq ▸ ha)
          exact updateM_other _ _ had

theorem copyOf_spec {α : Type u} {h : Heap α} {other : LList α} {as : List Nat}
    {vs : List α} (hc : Chain h.mem other.headNext as vs)
    (hs : other.size_ = as.length) :
    Chain (copyOf h other).1.mem (copyOf h other).2.headNext
      (List.range' h.nextA vs.length) vs ∧
    (copyOf h other).2.size_ = other.size_ ∧
    (copyOf h other).1.nextA = h.nextA + vs.length ∧
    ∀ x, x < h.nextA → (copyOf h other).1.mem x = h.mem x := by
  have htrav : traversal h other = vs := traversal_of_chain hc hs
  obtain ⟨c1, c2, c3⟩ := Construct_spec (traversal h other) h
  rw [htrav] at c1 c2 c3
  refine ⟨?_, rfl, ?_, ?_⟩
  · show Chain (Construct h (traversal h other)).1.mem
        (Construct h (traversal h other)).2 (List.range' h.nextA vs.length) vs
    rw [htrav]
    exact c1
  · show (Construct h (traversal h other)).1.nextA = h.nextA + vs.length
    rw [htrav]
    exact c2
  · intro x hx
    show (Construct h (traversal h other)).1.mem x = h.mem x
    rw [htrav]
    exact c3 x hx

theorem freeFrom_nextA {α : Type u} :
    ∀ (fuel : Nat) (h : Heap α) (p : Option Nat),
    (freeFrom h p fuel).nextA = h.nextA := by
  intro fuel
  induction fuel with
  | zero =>
      intro h p
      cases p with
      | none => rfl
      | some a => rfl
  | succ f ih =>
      intro h p
      cases p with
      | none => rfl
      | some a => exact ih _ _

theorem freeFrom_frame {α : Type u} :
    ∀ (as : List Nat) (h : Heap α) (p : Option Nat) (vs : List α),
    Chain h.mem p as vs →
    ∀ x, x ∉ as → (freeFrom h p as.length).mem x = h.mem x := by
  intro as
  induction as with
  | nil =>
      intro h p vs hc x _
      cases hc
      rfl
  | cons a0 as0 ih =>
      intro h p vs hc x hx
      cases hc with
      | cons hb hc' =>
          rename_i v0 p0 vs0
          have hxa : x ≠ a0 := by
            intro heq
            exact hx (by simp [heq])
          have hx0 : x ∉ as0 := fun hmem => hx (by simp [hmem])
          have hstep : freeFrom h (some a0) (a0 :: as0).length
              = freeFrom (free h a0) p0 as0.length := by
            simp only [List.length_cons, freeFrom, hb]
          have hfr : Chain (free h a0).mem p0 as0 vs0 := by
            refine chain_frame hc' ?_
            intro b hbmem
            have hba : b ≠ a0 := by
              intro heq
              exact (List.nodup_cons.mp (chain_nodup (Chain.cons hb hc'))).1
                (heq ▸ hbmem)
            exact updateM_other _ _ hba
          rw [hstep, ih (free h a0) p0 vs0 hfr x hx0]
          exact updateM_other _ _ hxa

theorem posOk_index {α : Type u} {h : Heap α} {L : LList α} {as : List Nat}
    {vs : List α} (hc : Chain h.mem L.headNext as vs) {pos : Pos}
    (hp : PosOk h L pos) : ∃ k, k ≤ as.length ∧ pos = posIdx as k := by
  cases pos with
  | beforeBegin => exact ⟨0, Nat.zero_le _, rfl⟩
  | node a =>
      obtain ⟨as', vs', hc', ha⟩ := hp
      obtain ⟨h1, -⟩ := chain_unique hc' hc
      rw [h1] at ha
      obtain ⟨⟨i, hi⟩, hget⟩ := List.mem_iff_get.mp ha
      refine ⟨i + 1, by omega, ?_⟩
      have hgd : as.getD i 0 = a := by
        rw [List.getD_eq_getElem?_getD, List.getElem?_eq_getElem hi]
        simpa using hget
      rw [posIdx, hgd]

theorem nextOf_posIdx {α : Type u} {h : Heap α} {L : LList α} {as : List Nat}
    {vs : List α} (hc : Chain h.mem L.headNext as vs) {k : Nat}
    (hk : k ≤ as.length) : nextOf h L (posIdx as k) = (as.drop k).head? := by
  cases k with
  | zero => exact chain_head hc
  | succ j =>
      have hj : j < as.length := by omega
      have hjv : j < vs.length := by rw [← chain_length hc]; exact hj
      have hxd : as.getD j 0 = as.get ⟨j, hj⟩ := by
        simp [List.getD_eq_getElem?_getD, List.getElem?_eq_getElem hj]
      have hsa : as = as.take j ++ as.get ⟨j, hj⟩ :: as.drop (j + 1) :=
        listSplitAt as j hj
      have hsv : vs = vs.take j ++ vs.get ⟨j, hjv⟩ :: vs.drop (j + 1) :=
        listSplitAt vs j hjv
      have hlen : (as.take j).length = (vs.take j).length := by
        simp only [List.length_take]
        omega
      have hcs : Chain h.mem L.headNext
          (as.take j ++ as.get ⟨j, hj⟩ :: as.drop (j + 1))
          (vs.take j ++ vs.get ⟨j, hjv⟩ :: vs.drop (j + 1)) := by
        rw [← hsa, ← hsv]
        exact hc
      obtain ⟨q, hmx, hq⟩ := chain_node_val hcs hlen
      rw [posIdx, hxd, nextOf, hmx]
      exact chain_head hq

theorem reach_WF {α : Type u} {h : Heap α} {L : LList α} (hr : Reach h L) :
    WF h L := by
  induction hr with
  | mkDefault h => exact ⟨[], [], Chain.nil, rfl, by simp⟩
  | mkOfValues h values =>
      obtain ⟨c1, c2, c3⟩ := Construct_spec values h
      refine ⟨_, _, c1, ?_, ?_⟩
      · show values.length = (List.range' h.nextA values.length).length
        simp
      · intro a ha
        have hm := List.mem_range'_1.mp ha
        show a < (Construct h values).1.nextA
        rw [c2]
        omega
  | mkCopy h src hWF =>
      obtain ⟨as, vs, hc, hs, hb⟩ := hWF
      obtain ⟨c1, c2, c3, c4⟩ := copyOf_spec hc hs
      refine ⟨_, _, c1, ?_, ?_⟩
      · rw [c2, hs, chain_length hc]
        simp
      · intro a ha
        have hm := List.mem_range'_1.mp ha
        rw [c3]
        omega
  | pushFront v hr ih =>
      obtain ⟨as, vs, hc, hs, hb⟩ := ih
      obtain ⟨c1, c2, c3⟩ := PushFront_spec v hc hb
      refine ⟨_, _, c1, by rw [c2, hs]; simp, ?_⟩
      intro a ha
      rw [c3]
      rcases List.mem_cons.mp ha with rfl | hmem
      · omega
      · have := hb a hmem
        omega
  | popFront hr hsz ih =>
      obtain ⟨as, vs, hc, hs, hb⟩ := ih
      obtain ⟨c1, c2, c3⟩ := PopFront_spec hc hs hsz
      refine ⟨_, _, c1, ?_, ?_⟩
      · rw [c2, hs]
        simp [List.length_tail]
      · intro a ha
        rw [c3]
        exact hb a (List.mem_of_mem_tail ha)
  | insertAfter pos v hr hp ih =>
      obtain ⟨as, vs, hc, hs, hb⟩ := ih
      obtain ⟨k, hk, hpe⟩ := posOk_index hc hp
      subst hpe
      obtain ⟨c1, c2, c3, c4, c5⟩ := InsertAfter_spec v hc hb hk
      refine ⟨_, _, c1, ?_, ?_⟩
      · rw [c2, hs]
        simp only [List.length_append, List.length_cons, List.length_take,
          List.length_drop]
        omega
      · intro a ha
        rw [c4]
        rcases List.mem_append.mp ha with hmem | hmem
        · have := hb a (List.take_subset _ _ hmem)
          omega
        · rcases List.mem_cons.mp hmem with rfl | hmem2
          · omega
          · have := hb a (List.drop_subset _ _ hmem2)
            omega
  | eraseAfter pos hr hp hne ih =>
      obtain ⟨as, vs, hc, hs, hb⟩ := ih
      obtain ⟨k, hk, hpe⟩ := posOk_index hc hp
      subst hpe
      have hk2 : k < as.length := by
        have hno := nextOf_posIdx hc hk
        rw [hno] at hne
        have hnil : as.drop k ≠ [] := by
          intro heq
          rw [heq] at hne
          exact hne rfl
        have hlen := List.length_drop k as
        by_contra hcon
        push_neg at hcon
        apply hnil
        have : (as.drop k).length = 0 := by omega
        exact List.length_eq_zero.mp this
      obtain ⟨c1, c2, c3, c4⟩ := EraseAfter_spec hc hk2
      refine ⟨_, _, c1, ?_, ?_⟩
      · rw [c2, hs]
        simp only [List.length_append, List.length_take, List.length_drop]
        omega
      · intro a ha
        rw [c4]
        rcases List.mem_append.mp ha with hmem | hmem
        · exact hb a (List.take_subset _ _ hmem)
        · exact hb a (List.drop_subset _ _ hmem)
  | clearOp hr ih => exact ⟨[], [], Chain.nil, rfl, by simp⟩
  | swapOp other hr hWFo ih =>
      obtain ⟨as, vs, hc, hs, hb⟩ := hWFo
      exact ⟨as, vs, hc, hs, hb⟩
  | assignOp src hr hWFs ih =>
      rename_i hh LL
      obtain ⟨das, dvs, hcd, hsd, hbd⟩ := ih
      obtain ⟨sas, svs, hcs, hss, hbs⟩ := hWFs
      obtain ⟨c1, c2, c3, c4⟩ := copyOf_spec hcs hss
      have hcd2 : Chain (copyOf hh src).1.mem LL.headNext das dvs :=
        chain_frame hcd (fun a ha => c4 a (hbd a ha))
      have hff := freeFrom_frame das (copyOf hh src).1 LL.headNext dvs hcd2
      refine ⟨_, _, chain_frame c1 ?_, ?_, ?_⟩
      · intro a ha
        have hm := List.mem_range'_1.mp ha
        show (freeFrom (copyOf hh src).1 LL.headNext LL.size_).mem a
            = (copyOf hh src).1.mem a
        rw [hsd]
        refine hff a ?_
        intro hmem
        have := hbd a hmem
        omega
      · show src.size_ = (List.range' hh.nextA svs.length).length
        rw [hss, chain_length hcs]
        simp
      · intro a ha
        have hm := List.mem_range'_1.mp ha
        show a < (freeFrom (copyOf hh src).1 LL.headNext LL.size_).nextA
        rw [freeFrom_nextA, c3]
        omega

theorem lexCompare_strict_init {α : Type u} (comp : α → α → Bool)
    (hirr : ∀ a, comp a a = false) :
    ∀ (as t : List α), t ≠ [] → lexicographicalCompare comp as (as ++ t) = true := by
  intro as
  induction as with
  | nil =>
      intro t ht
      cases t with
      | nil => exact absurd rfl ht
      | cons x xs => rfl
  | cons a as' ih =>
      intro t ht
      simp only [List.cons_append, lexicographicalCompare, hirr a]
      simp only [Bool.false_eq_true, if_false]
      exact ih t ht

theorem lexCompare_init_false {α : Type u} (comp : α → α → Bool)
    (hirr : ∀ a, comp a a = false) :
    ∀ (as t : List α), lexicographicalCompare comp (as ++ t) as = false := by
  intro as
  induction as with
  | nil =>
      intro t
      cases t with
      | nil => rfl
      | cons x xs => rfl
  | cons a as' ih =>
      intro t
      simp only [List.cons_append, lexicographicalCompare, hirr a]
      simp only [Bool.false_eq_true, if_false]
      exact ih t

theorem lexCompare_common {α : Type u} (comp : α → α → Bool)
    (hirr : ∀ a, comp a a = false) :
    ∀ (cs : List α) (x y : α) (u w : List α),
    lexicographicalCompare comp (cs ++ x :: u) (cs ++ y :: w)
      = if comp x y then true
        else if comp y x then false
        else lexicographicalCompare comp u w := by
  intro cs
  induction cs with
  | nil => intro x y u w; rfl
  | cons c cs' ih =>
      intro x y u w
      simp only [List.cons_append, lexicographicalCompare, hirr c]
      simp only [Bool.false_eq_true, if_false]
      exact ih x y u w

theorem lexCompare_flip {α : Type u} [LinearOrder α] :
    ∀ (as bs : List α),
    (¬ ∃ t, t ≠ [] ∧ bs = as ++ t) → (¬ ∃ t, t ≠ [] ∧ as = bs ++ t) →
    lexicographicalCompare (fun x y => decide (y < x)) as bs
      = lexicographicalCompare (fun x y => decide (x < y)) bs as := by
  intro as
  induction as with
  | nil =>
      intro bs h1 _
      cases bs with
      | nil => rfl
      | cons b bs' => exact absurd ⟨b :: bs', by simp, by simp⟩ h1
  | cons a as' ih =>
      intro bs h1 h2
      cases bs with
      | nil => exact absurd ⟨a :: as', by simp, by simp⟩ h2
      | cons b bs' =>
          simp only [lexicographicalCompare]
          by_cases hba : b < a
          · simp [hba, not_lt_of_lt hba]
          · by_cases hab : a < b
            · simp [hab, hba]
            · have hae : a = b := le_antisymm (not_lt.mp hba) (not_lt.mp hab)
              subst hae
              simp only [hba, hab, decide_eq_true_eq, if_false]
              refine ih bs' ?_ ?_
              · intro ⟨t, ht, he⟩
                exact h1 ⟨t, ht, by rw [List.cons_append, he]⟩
              · intro ⟨t, ht, he⟩
                exact h2 ⟨t, ht, by rw [List.cons_append, he]⟩

theorem equalRange_refl {α : Type u} [DecidableEq α] :
    ∀ as : List α, equalRange as as = true := by
  intro as
  induction as with
  | nil => rfl
  | cons a as' ih => simp [equalRange, ih]

theorem equalRange_iff {α : Type u} [DecidableEq α] :
    ∀ (as bs : List α), as.length = bs.length →
    (equalRange as bs = true ↔ as = bs) := by
  intro as
  induction as with
  | nil =>
      intro bs hlen
      cases bs with
      | nil => simp [equalRange]
      | cons b bs' => simp at hlen
  | cons a as' ih =>
      intro bs hlen
      cases bs with
      | nil => simp at hlen
      | cons b bs' =>
          by_cases hab : a = b
          · subst hab
            simp only [equalRange, if_pos rfl, List.cons.injEq, true_and]
            exact ih bs' (by simpa using hlen)
          · simp [equalRange, hab]

/-- C5: for every ordered sequence of values S, constructing a list from S
(`SingleLinkedList(std::initializer_list)`, which delegates to `Construct`)
and then traversing it from `begin()` to `end()` yields exactly the elements
of S in the same order, and `GetSize()` equals the length of S. -/
theorem ofValues_traversal {α : Type u} (h : Heap α) (values : List α) :
    traversal (ofValues h values).1 (ofValues h values).2 = values ∧
    GetSize (ofValues h values).2 = values.length := by
  obtain ⟨c1, -, -⟩ := Construct_spec values h
  refine ⟨traversal_of_chain c1 ?_, rfl⟩
  show values.length = (List.range' h.nextA values.length).length
  simp

/-- C9: for every list L and value v, `InsertAfter(L.before_begin(), v)`
produces exactly the same heap and list state as `PushFront(v)` — in
particular the same traversal and size — and the returned iterator equals
`L.begin()` afterwards. -/
theorem insertAfter_beforeBegin_eq_pushFront {α : Type u} (h : Heap α)
    (L : LList α) (v : α) :
    (InsertAfter h L Pos.beforeBegin v).1 = (PushFront h L v).1 ∧
    (InsertAfter h L Pos.beforeBegin v).2.1 = (PushFront h L v).2 ∧
    traversal (InsertAfter h L Pos.beforeBegin v).1
        (InsertAfter h L Pos.beforeBegin v).2.1
      = traversal (PushFront h L v).1 (PushFront h L v).2 ∧
    GetSize (InsertAfter h L Pos.beforeBegin v).2.1 = GetSize (PushFront h L v).2 ∧
    some (InsertAfter h L Pos.beforeBegin v).2.2
      = begin (InsertAfter h L Pos.beforeBegin v).2.1 :=
  ⟨rfl, rfl, rfl, rfl, rfl⟩

/-- C10: in the src/single-linked-list/single-linked-list.h variant,
`PopFront()` on an empty list is a no-op — the whole body is guarded by
`if (size_)` — so the state is unchanged, the size stays 0 and the traversal
stays empty. -/
theorem PopFront_empty_noop {α : Type u} (h : Heap α) (L : LList α)
    (hsz : L.size_ = 0) :
    PopFront h L = (h, L) ∧ GetSize (PopFront h L).2 = 0 ∧
    traversal (PopFront h L).1 (PopFront h L).2 = [] := by
  have hres : PopFront h L = (h, L) := by
    simp [PopFront, hsz]
  refine ⟨hres, by rw [hres]; exact hsz, ?_⟩
  rw [hres, traversal, hsz]
  cases L.headNext with
  | none => rfl
  | some a => rfl

/-- Witness for `PopFront_empty_noop` at a concrete empty list. -/
theorem PopFront_empty_noop_witness :
    PopFront (emptyHeap Nat) ⟨none, 0⟩ = (emptyHeap Nat, ⟨none, 0⟩) ∧
    GetSize (PopFront (emptyHeap Nat) (⟨none, 0⟩ : LList Nat)).2 = 0 ∧
    traversal (PopFront (emptyHeap Nat) (⟨none, 0⟩ : LList Nat)).1
      (PopFront (emptyHeap Nat) (⟨none, 0⟩ : LList Nat)).2 = [] :=
  PopFront_empty_noop (emptyHeap Nat) ⟨none, 0⟩ rfl

/-- C1: the `swap` of src/single-linked-list/single-linked-list.h applies
`std::swap` to the addresses of the members instead of the members (which is
ill-formed C++ and exchanges nothing), so after it A's traversal is still A's
own — not the pre-swap traversal of B — and `GetSize()` is unchanged;
the `swap` of src/unnamed/part_000 does exchange the contents, as its own
comment (and the spec) promises.  Evaluated at A = [] and B = [1]. -/
theorem swapAddrs_no_exchange :
    traversal (ofValues (emptyHeap Nat) [1]).1
      ((swapAddrs (⟨none, 0⟩ : LList Nat) (ofValues (emptyHeap Nat) [1]).2).1) = [] ∧
    traversal (ofValues (emptyHeap Nat) [1]).1 (ofValues (emptyHeap Nat) [1]).2
      = [1] ∧
    GetSize ((swapAddrs (⟨none, 0⟩ : LList Nat)
      (ofValues (emptyHeap Nat) [1]).2).1) = 0 ∧
    traversal (ofValues (emptyHeap Nat) [1]).1
      ((swap (⟨none, 0⟩ : LList Nat) (ofValues (emptyHeap Nat) [1]).2).1) = [1] ∧
    GetSize ((swap (⟨none, 0⟩ : LList Nat)
      (ofValues (emptyHeap Nat) [1]).2).1) = 1 := by
  refine ⟨rfl, rfl, rfl, rfl, rfl⟩

/-- Counterexample to C2 as stated: with A = [] a strict traversal-order
initial segment of B = [0], the code's `operator>` (lexicographic compare
with `std::greater`) yields `A > B = true` even though `B < A = false` and
`A < B = true` — refuting both "a > b holds exactly when b < a" and
"a shorter strict-initial-segment list satisfies a > b = false". -/
theorem gtOp_strict_init_cx :
    gtOp (ofValues (emptyHeap Nat) [0]).1 ⟨none, 0⟩
      (ofValues (emptyHeap Nat) [0]).2 = true ∧
    ltOp (ofValues (emptyHeap Nat) [0]).1 (ofValues (emptyHeap Nat) [0]).2
      ⟨none, 0⟩ = false ∧
    ltOp (ofValues (emptyHeap Nat) [0]).1 ⟨none, 0⟩
      (ofValues (emptyHeap Nat) [0]).2 = true := by
  refine ⟨rfl, rfl, rfl⟩

/-- C2 (amended): `operator<` is standard lexicographic comparison over the
traversal sequences — a strict initial segment compares less and the first
differing element decides — but `operator>` is a lexicographic comparison
with per-element greater-than, so a strict initial segment A of B satisfies
both `A < B` and `A > B`; the first differing element decides `>` as well,
and `a > b` coincides with `b < a` exactly when neither traversal is a
strict initial segment of the other. -/
theorem lexOrder_amended {α : Type u} [LinearOrder α] (h : Heap α)
    (A B : LList α) :
    ((∃ t, t ≠ [] ∧ traversal h B = traversal h A ++ t) →
      ltOp h A B = true ∧ gtOp h A B = true ∧
      ltOp h B A = false ∧ gtOp h B A = false) ∧
    (∀ (cs : List α) (x y : α) (u w : List α), x ≠ y →
      traversal h A = cs ++ x :: u → traversal h B = cs ++ y :: w →
      (ltOp h A B = true ↔ x < y) ∧ (gtOp h A B = true ↔ y < x)) ∧
    ((¬ ∃ t, t ≠ [] ∧ traversal h B = traversal h A ++ t) →
     (¬ ∃ t, t ≠ [] ∧ traversal h A = traversal h B ++ t) →
      gtOp h A B = ltOp h B A) := by
  have hirrlt : ∀ a : α, (fun x y => decide (x < y)) a a = false := by
    intro a
    simp
  have hirrgt : ∀ a : α, (fun x y => decide (y < x)) a a = false := by
    intro a
    simp
  refine ⟨?_, ?_, ?_⟩
  · intro ⟨t, ht, he⟩
    rw [ltOp, gtOp, ltOp, gtOp, he]
    exact ⟨lexCompare_strict_init _ hirrlt _ t ht,
      lexCompare_strict_init _ hirrgt _ t ht,
      lexCompare_init_false _ hirrlt _ t,
      lexCompare_init_false _ hirrgt _ t⟩
  · intro cs x y u w hxy hA hB
    rw [ltOp, gtOp, hA, hB, lexCompare_common _ hirrlt, lexCompare_common _ hirrgt]
    rcases Ne.lt_or_lt hxy with hlt | hlt
    · simp [hlt, not_lt_of_lt hlt]
    · simp [hlt, not_lt_of_lt hlt]
  · intro h1 h2
    rw [ltOp, gtOp]
    exact lexCompare_flip _ _ h1 h2

/-- Witness for `lexOrder_amended` at A = [] and B = [0] over a concrete
heap, exercising the strict-initial-segment part. -/
theorem lexOrder_amended_witness :
    ltOp (ofValues (emptyHeap Nat) [0]).1 ⟨none, 0⟩
      (ofValues (emptyHeap Nat) [0]).2 = true ∧
    gtOp (ofValues (emptyHeap Nat) [0]).1 ⟨none, 0⟩
      (ofValues (emptyHeap Nat) [0]).2 = true ∧
    ltOp (ofValues (emptyHeap Nat) [0]).1 (ofValues (emptyHeap Nat) [0]).2
      ⟨none, 0⟩ = false ∧
    gtOp (ofValues (emptyHeap Nat) [0]).1 (ofValues (emptyHeap Nat) [0]).2
      ⟨none, 0⟩ = false :=
  (lexOrder_amended (ofValues (emptyHeap Nat) [0]).1 ⟨none, 0⟩
    (ofValues (emptyHeap Nat) [0]).2).1 ⟨[0], by simp, by rfl⟩

/-- C3: under the size invariant, `operator==` returns true iff the two lists
have the same `begin()` pointer (the same-instance fast path, which for
well-formed lists implies equal contents) or the same size and pairwise-equal
elements in traversal order; lists of different sizes are never equal, and
when the fast path fails and the sizes differ the result is false for every
heap — no element is ever consulted, i.e. the size check short-circuits
before any per-element comparison. -/
theorem eqOp_spec {α : Type u} [DecidableEq α] {h : Heap α} {A B : LList α}
    (hA : WF h A) (hB : WF h B) :
    (eqOp h A B = true ↔
      (A.headNext = B.headNext ∨
        (GetSize A = GetSize B ∧ traversal h A = traversal h B))) ∧
    (GetSize A ≠ GetSize B → eqOp h A B = false) ∧
    (∀ h2 : Heap α, A.headNext ≠ B.headNext → A.size_ ≠ B.size_ →
      eqOp h2 A B = false) := by
  obtain ⟨as, vs, hcA, hsA, -⟩ := hA
  obtain ⟨bs, ws, hcB, hsB, -⟩ := hB
  have htA : traversal h A = vs := traversal_of_chain hcA hsA
  have htB : traversal h B = ws := traversal_of_chain hcB hsB
  have hlA : vs.length = A.size_ := by rw [hsA, chain_length hcA]
  have hlB : ws.length = B.size_ := by rw [hsB, chain_length hcB]
  refine ⟨?_, ?_, ?_⟩
  · by_cases hfast : A.headNext = B.headNext
    · constructor
      · intro _
        exact Or.inl hfast
      · intro _
        simp [eqOp, hfast]
    · by_cases hsz : A.size_ = B.size_
      · have heq : eqOp h A B = equalRange (traversal h A) (traversal h B) := by
          simp [eqOp, hfast, hsz]
        rw [heq, htA, htB, equalRange_iff vs ws (by omega)]
        constructor
        · intro hvw
          exact Or.inr ⟨hsz, hvw⟩
        · intro hor
          rcases hor with hl | ⟨-, htr⟩
          · exact absurd hl hfast
          · exact htr
      · have hne : eqOp h A B = false := by
          simp [eqOp, hfast, hsz]
        rw [hne]
        constructor
        · intro hcon
          simp at hcon
        · intro hor
          rcases hor with hl | ⟨hgs, -⟩
          · exact absurd hl hfast
          · exact absurd hgs hsz
  · intro hgs
    have hgs' : A.size_ ≠ B.size_ := hgs
    by_cases hfast : A.headNext = B.headNext
    · exfalso
      have hcB' : Chain h.mem A.headNext bs ws := by
        rw [hfast]
        exact hcB
      obtain ⟨he1, -⟩ := chain_unique hcA hcB'
      apply hgs'
      rw [hsA, hsB, he1]
    · simp [eqOp, hfast, hgs']
  · intro h2 hfast hsz
    simp [eqOp, hfast, hsz]

/-- Witness for `eqOp_spec`: the singleton list [0] compares unequal to a
distinct empty list via the size short-circuit. -/
theorem eqOp_spec_witness :
    eqOp (ofValues (emptyHeap Nat) [0]).1 (ofValues (emptyHeap Nat) [0]).2
      (⟨none, 0⟩ : LList Nat) = false :=
  (eqOp_spec
    ⟨[0], [0], Chain.cons rfl Chain.nil, rfl, by decide⟩
    ⟨[], [], Chain.nil, rfl, by simp⟩).2.1 (by decide)

/-- C4: if constructing the new node fails during `InsertAfter` (the
`new Node(...)` step, which in the source precedes every mutation), the list
object is exactly as before the call, every already-allocated node is
untouched, and the traversal and size are unchanged. -/
theorem InsertAfterFail_preserves {α : Type u} {h : Heap α} {L : LList α}
    (pos : Pos) (v : α) (hWF : WF h L) :
    (InsertAfterFail h L pos v).2 = L ∧
    (∀ x, x < h.nextA → (InsertAfterFail h L pos v).1.mem x = h.mem x) ∧
    traversal (InsertAfterFail h L pos v).1 (InsertAfterFail h L pos v).2
      = traversal h L ∧
    GetSize (InsertAfterFail h L pos v).2 = GetSize L := by
  obtain ⟨as, vs, hc, hs, hb⟩ := hWF
  have hframe : ∀ x, x < h.nextA →
      (InsertAfterFail h L pos v).1.mem x = h.mem x := by
    intro x hx
    show updateM h.mem h.nextA (some ⟨v, nextOf h L pos⟩) x = h.mem x
    exact updateM_other _ _ (by omega)
  refine ⟨rfl, hframe, ?_, rfl⟩
  have hc2 : Chain (InsertAfterFail h L pos v).1.mem L.headNext as vs :=
    chain_frame hc (fun a ha => hframe a (hb a ha))
  show traversal (InsertAfterFail h L pos v).1 L = traversal h L
  rw [traversal_of_chain hc2 hs, traversal_of_chain hc hs]

/-- Witness for `InsertAfterFail_preserves` at the empty list. -/
theorem InsertAfterFail_preserves_witness :
    (InsertAfterFail (emptyHeap Nat) ⟨none, 0⟩ Pos.beforeBegin 5).2
      = (⟨none, 0⟩ : LList Nat) ∧
    traversal (InsertAfterFail (emptyHeap Nat) (⟨none, 0⟩ : LList Nat)
        Pos.beforeBegin 5).1
      (InsertAfterFail (emptyHeap Nat) (⟨none, 0⟩ : LList Nat)
        Pos.beforeBegin 5).2
      = traversal (emptyHeap Nat) ⟨none, 0⟩ := by
  have hres := InsertAfterFail_preserves (h := emptyHeap Nat)
    (L := ⟨none, 0⟩) Pos.beforeBegin 5 ⟨[], [], Chain.nil, rfl, by simp⟩
  exact ⟨hres.1, hres.2.2.1⟩

/-- C6: if `pos` references the element at traversal index `k - 1` (slot
`k = 0` being `before_begin()`, the claims' index `i = -1`), then after
`InsertAfter(pos, v)` the traversal is the old one with `v` inserted at
index `k` (= `i + 1`) and all other elements in their old relative order,
the element at index `k` is `v`, the returned iterator dereferences to `v`,
and `GetSize()` grows by exactly 1. -/
theorem InsertAfter_at_index {α : Type u} {h : Heap α} {L : LList α}
    {as : List Nat} {vs : List α} (v : α) (hc : Chain h.mem L.headNext as vs)
    (hs : L.size_ = as.length) (hbound : ∀ a ∈ as, a < h.nextA) {k : Nat}
    (hk : k ≤ as.length) :
    traversal (InsertAfter h L (posIdx as k) v).1
      (InsertAfter h L (posIdx as k) v).2.1 = vs.take k ++ v :: vs.drop k ∧
    (traversal (InsertAfter h L (posIdx as k) v).1
      (InsertAfter h L (posIdx as k) v).2.1)[k]? = some v ∧
    GetSize (InsertAfter h L (posIdx as k) v).2.1 = GetSize L + 1 ∧
    deref (InsertAfter h L (posIdx as k) v).1
      (InsertAfter h L (posIdx as k) v).2.2 = some v := by
  obtain ⟨c1, c2, c3, c4, c5⟩ := InsertAfter_spec v hc hbound hk
  have hkv : k ≤ vs.length := by
    rw [← chain_length hc]
    exact hk
  have hlen2 : (InsertAfter h L (posIdx as k) v).2.1.size_
      = (as.take k ++ h.nextA :: as.drop k).length := by
    rw [c2, hs]
    simp only [List.length_append, List.length_cons, List.length_take,
      List.length_drop]
    omega
  have htrav := traversal_of_chain c1 hlen2
  have htk : (vs.take k).length = k := by
    simp only [List.length_take]
    omega
  refine ⟨htrav, ?_, c2, c5⟩
  rw [htrav, List.getElem?_append_right (le_of_eq htk), htk]
  simp

/-- Witness for `InsertAfter_at_index`: inserting 99 after the first element
of the concrete two-node list [10, 20]. -/
theorem InsertAfter_at_index_witness :
    traversal (InsertAfter
        (⟨updateM (updateM (fun _ => none) 0 (some ⟨10, some 1⟩)) 1
            (some ⟨20, none⟩), 2⟩ : Heap Nat)
        ⟨some 0, 2⟩ (posIdx [0, 1] 1) 99).1
      (InsertAfter
        (⟨updateM (updateM (fun _ => none) 0 (some ⟨10, some 1⟩)) 1
            (some ⟨20, none⟩), 2⟩ : Heap Nat)
        ⟨some 0, 2⟩ (posIdx [0, 1] 1) 99).2.1 = [10, 99, 20] ∧
    GetSize (InsertAfter
        (⟨updateM (updateM (fun _ => none) 0 (some ⟨10, some 1⟩)) 1
            (some ⟨20, none⟩), 2⟩ : Heap Nat)
        ⟨some 0, 2⟩ (posIdx [0, 1] 1) 99).2.1 = 3 := by
  have hchain : Chain (⟨updateM (updateM (fun _ => none) 0 (some ⟨10, some 1⟩)) 1
      (some ⟨20, none⟩), 2⟩ : Heap Nat).mem (some 0) [0, 1] [10, 20] :=
    Chain.cons rfl (Chain.cons rfl Chain.nil)
  have hres := InsertAfter_at_index (L := ⟨some 0, 2⟩) 99 hchain rfl (by decide)
    (k := 1) (by decide)
  exact ⟨hres.1, hres.2.2.1⟩

/-- C7: if `pos` references the position at slot `k` (`before_begin()` for
`k = 0`) and a successor exists (`k < size`), then `EraseAfter(pos)` removes
the element at traversal index `k`, leaving the rest in order, decreases
`GetSize()` by exactly 1, and returns the iterator now following `pos` — the
address of the old index-`k+1` node, or the null end iterator if none. -/
theorem EraseAfter_at_index {α : Type u} {h : Heap α} {L : LList α}
    {as : List Nat} {vs : List α} (hc : Chain h.mem L.headNext as vs)
    (hs : L.size_ = as.length) {k : Nat} (hk2 : k < as.length) :
    traversal (EraseAfter h L (posIdx as k)).1
      (EraseAfter h L (posIdx as k)).2.1 = vs.take k ++ vs.drop (k + 1) ∧
    GetSize (EraseAfter h L (posIdx as k)).2.1 = GetSize L - 1 ∧
    (EraseAfter h L (posIdx as k)).2.2 = (as.drop (k + 1)).head? := by
  obtain ⟨c1, c2, c3, c4⟩ := EraseAfter_spec hc hk2
  have hlen2 : (EraseAfter h L (posIdx as k)).2.1.size_
      = (as.take k ++ as.drop (k + 1)).length := by
    rw [c2, hs]
    simp only [List.length_append, List.length_take, List.length_drop]
    omega
  exact ⟨traversal_of_chain c1 hlen2, c2, c3⟩

/-- Witness for `EraseAfter_at_index`: erasing after `before_begin()` of the
concrete two-node list [10, 20] removes the first element. -/
theorem EraseAfter_at_index_witness :
    traversal (EraseAfter
        (⟨updateM (updateM (fun _ => none) 0 (some ⟨10, some 1⟩)) 1
            (some ⟨20, none⟩), 2⟩ : Heap Nat)
        ⟨some 0, 2⟩ (posIdx [0, 1] 0)).1
      (EraseAfter
        (⟨updateM (updateM (fun _ => none) 0 (some ⟨10, some 1⟩)) 1
            (some ⟨20, none⟩), 2⟩ : Heap Nat)
        ⟨some 0, 2⟩ (posIdx [0, 1] 0)).2.1 = [20] ∧
    (EraseAfter
        (⟨updateM (updateM (fun _ => none) 0 (some ⟨10, some 1⟩)) 1
            (some ⟨20, none⟩), 2⟩ : Heap Nat)
        ⟨some 0, 2⟩ (posIdx [0, 1] 0)).2.2 = some 1 := by
  have hchain : Chain (⟨updateM (updateM (fun _ => none) 0 (some ⟨10, some 1⟩)) 1
      (some ⟨20, none⟩), 2⟩ : Heap Nat).mem (some 0) [0, 1] [10, 20] :=
    Chain.cons rfl (Chain.cons rfl Chain.nil)
  have hres := EraseAfter_at_index (L := ⟨some 0, 2⟩) hchain rfl (k := 0)
    (by decide)
  exact ⟨hres.1, hres.2.2⟩

/-- C8: every list state reachable from a constructor by the public
operations (each under its documented precondition) satisfies the invariant:
`GetSize()` equals the exact number of nodes on the chain reachable from the
sentinel's next reference, and that chain is finite, null-terminated (built
into `Chain`) and acyclic (no address repeats). -/
theorem reach_invariant {α : Type u} {h : Heap α} {L : LList α}
    (hr : Reach h L) :
    ∃ as vs, Chain h.mem L.headNext as vs ∧ GetSize L = as.length ∧
      as.Nodup := by
  obtain ⟨as, vs, hc, hs, -⟩ := reach_WF hr
  exact ⟨as, vs, hc, hs, chain_nodup hc⟩

/-- Witness for `reach_invariant` at the state reached by constructing from
[5] and then pushing 7 at the front. -/
theorem reach_invariant_witness :
    ∃ as vs,
      Chain (PushFront (ofValues (emptyHeap Nat) [5]).1
          (ofValues (emptyHeap Nat) [5]).2 7).1.mem
        (PushFront (ofValues (emptyHeap Nat) [5]).1
          (ofValues (emptyHeap Nat) [5]).2 7).2.headNext as vs ∧
      GetSize (PushFront (ofValues (emptyHeap Nat) [5]).1
          (ofValues (emptyHeap Nat) [5]).2 7).2 = as.length ∧
      as.Nodup :=
  reach_invariant (Reach.pushFront 7 (Reach.mkOfValues (emptyHeap Nat) [5]))

end SLL

